import Mathlib

/-!
Verification development for the 128-bit long double natural logarithm
kernel `__ieee754_logl` (sysdeps/ieee754/ldbl-128/e_logl.c).

The embedding is shallow:
* the 128-bit input is the four 32-bit words of the
  `ieee854_long_double_shape_type` union (`LD`);
* the integer bit-field manipulations of the source are modelled verbatim
  on `Nat` (shifts, masks, additions);
* the floating-point values flowing through the reduction and the series
  are modelled as exact rationals (`ℚ`); the decimal constant literals of
  the source are taken at face value as rationals;
* the four distinguished return expressions of the source
  (`-0.5/ZERO`, `(x-x)/ZERO`, `x+x`, and an ordinary computed value) are
  kept symbolic in the result type `LogResult`, so that the theorems can
  speak about which IEEE idiom produces the returned special value.
-/

namespace Logl

/-- The 128-bit long double seen as four 32-bit words, `w0` most
significant (sign, 15 exponent bits, top 16 mantissa bits), exactly the
`parts32` view used by the source. -/
structure LD where
  w0 : Nat
  w1 : Nat
  w2 : Nat
  w3 : Nat
deriving DecidableEq

/-- Sign bit of the pattern (bit 31 of `w0`). -/
def signBit (x : LD) : Nat := x.w0 >>> 31

/-- Biased 15-bit exponent field of the pattern. -/
def expField (x : LD) : Nat := (x.w0 >>> 16) &&& 0x7fff

/-- The 112-bit mantissa field of the pattern (top 16 bits from `w0`,
then `w1`, `w2`, `w3`). -/
def fracField (x : LD) : Nat :=
  ((x.w0 &&& 0xffff) <<< 96) + (x.w1 <<< 64) + (x.w2 <<< 32) + x.w3

/-- Exact rational value of a finite IEEE binary128 bit pattern
(normal when the exponent field is nonzero, subnormal when it is zero). -/
def decode (x : LD) : ℚ :=
  let sgn : ℚ := if signBit x = 1 then -1 else 1
  if expField x = 0 then
    sgn * (fracField x : ℚ) * (2 : ℚ) ^ (-16494 : ℤ)
  else
    sgn * ((2 : ℚ) ^ 112 + (fracField x : ℚ)) * (2 : ℚ) ^ ((expField x : ℤ) - 16495)

/-- The 13 series coefficients `l3 .. l15` of the source, decimal
literals read as exact rationals.
`log(1+x) = x - .5 x^2 + x^3 l(x)`, `-.0078125 <= x <= +.0078125`. -/
def l3 : ℚ := 3.333333333333333333333333333333336096926e-1

def l4 : ℚ := -2.499999999999999999999999999486853077002e-1

def l5 : ℚ := 1.999999999999999999999999998515277861905e-1

def l6 : ℚ := -1.666666666666666666666798448356171665678e-1

def l7 : ℚ := 1.428571428571428571428808945895490721564e-1

def l8 : ℚ := -1.249999999999999987884655626377588149000e-1

def l9 : ℚ := 1.111111111111111093947834982832456459186e-1

def l10 : ℚ := -1.000000000000532974938900317952530453248e-1

def l11 : ℚ := 9.090909090915566247008015301349979892689e-2

def l12 : ℚ := -8.333333211818065121250921925397567745734e-2

def l13 : ℚ := 7.692307559897661630807048686258659316091e-2

def l14 : ℚ := -7.144242754190814657241902218399056829264e-2

def l15 : ℚ := 6.668057591071739754844678883223432347481e-2

/-- Lookup table of `ln(t) - (t-1)`, `t = 0.5 + (k+26)/128`,
`k = 0, ..., 91`, the decimal literals of the source read as exact
rationals.  Entry 38 (the source's `ZERO` anchor, `t = 1`) is exactly 0. -/
def logtbl : List ℚ := [
  -5.5345593589352099112142921677820359632418e-2,
  -5.2108257402767124761784665198737642086148e-2,
  -4.8991686870576856279407775480686721935120e-2,
  -4.5993270766361228596215288742353061431071e-2,
  -4.3110481649613269682442058976885699556950e-2,
  -4.0340872319076331310838085093194799765520e-2,
  -3.7682072451780927439219005993827431503510e-2,
  -3.5131785416234343803903228503274262719586e-2,
  -3.2687785249045246292687241862699949178831e-2,
  -3.0347913785027239068190798397055267411813e-2,
  -2.8110077931525797884641940838507561326298e-2,
  -2.5972247078357715036426583294246819637618e-2,
  -2.3932450635346084858612873953407168217307e-2,
  -2.1988775689981395152022535153795155900240e-2,
  -2.0139364778244501615441044267387667496733e-2,
  -1.8382413762093794819267536615342902718324e-2,
  -1.6716169807550022358923589720001638093023e-2,
  -1.5138929457710992616226033183958974965355e-2,
  -1.3649036795397472900424896523305726435029e-2,
  -1.2244881690473465543308397998034325468152e-2,
  -1.0924898127200937840689817557742469105693e-2,
  -9.6875626072830301572839422532631079809328e-3,
  -8.5313926245226231463436209313499745894157e-3,
  -7.4549452072765973384933565912143044991706e-3,
  -6.4568155251217050991200599386801665681310e-3,
  -5.5356355563671005131126851708522185605193e-3,
  -4.6900728132525199028885749289712348829878e-3,
  -3.9188291218610470766469347968659624282519e-3,
  -3.2206394539524058873423550293617843896540e-3,
  -2.5942708080877805657374888909297113032132e-3,
  -2.0385211375711716729239156839929281289086e-3,
  -1.5522183228760777967376942769773768850872e-3,
  -1.1342191863606077520036253234446621373191e-3,
  -7.8340854719967065861624024730268350459991e-4,
  -4.9869831458030115699628274852562992756174e-4,
  -2.7902661731604211834685052867305795169688e-4,
  -1.2335696813916860754951146082826952093496e-4,
  -3.0677461025892873184042490943581654591817e-5,
  0.0000000000000000000000000000000000000000e0,
  -3.0359557945051052537099938863236321874198e-5,
  -1.2081346403474584914595395755316412213151e-4,
  -2.7044071846562177120083903771008342059094e-4,
  -4.7834133324631162897179240322783590830326e-4,
  -7.4363569786340080624467487620270965403695e-4,
  -1.0654639687057968333207323853366578860679e-3,
  -1.4429854811877171341298062134712230604279e-3,
  -1.8753781835651574193938679595797367137975e-3,
  -2.3618380914922506054347222273705859653658e-3,
  -2.9015787624124743013946600163375853631299e-3,
  -3.4938307889254087318399313316921940859043e-3,
  -4.1378413103128673800485306215154712148146e-3,
  -4.8328735414488877044289435125365629849599e-3,
  -5.5782063183564351739381962360253116934243e-3,
  -6.3731336597098858051938306767880719015261e-3,
  -7.2169643436165454612058905294782949315193e-3,
  -8.1090214990427641365934846191367315083867e-3,
  -9.0486422112807274112838713105168375482480e-3,
  -1.0035177140880864314674126398350812606841e-2,
  -1.1067990155502102718064936259435676477423e-2,
  -1.2146457974158024928196575103115488672416e-2,
  -1.3269969823361415906628825374158424754308e-2,
  -1.4437927104692837124388550722759686270765e-2,
  -1.5649743073340777659901053944852735064621e-2,
  -1.6904842527181702880599758489058031645317e-2,
  -1.8202661505988007336096407340750378994209e-2,
  -1.9542647000370545390701192438691126552961e-2,
  -2.0924256670080119637427928803038530924742e-2,
  -2.2346958571309108496179613803760727786257e-2,
  -2.3810230892650362330447187267648486279460e-2,
  -2.5313561699385640380910474255652501521033e-2,
  -2.6856448685790244233704909690165496625399e-2,
  -2.8438398935154170008519274953860128449036e-2,
  -3.0058928687233090922411781058956589863039e-2,
  -3.1717563112854831855692484086486099896614e-2,
  -3.3413836095418743219397234253475252001090e-2,
  -3.5147290019036555862676702093393332533702e-2,
  -3.6917475563073933027920505457688955423688e-2,
  -3.8723951502862058660874073462456610731178e-2,
  -4.0566284516358241168330505467000838017425e-2,
  -4.2444048996543693813649967076598766917965e-2,
  -4.4356826869355401653098777649745233339196e-2,
  -4.6304207416957323121106944474331029996141e-2,
  -4.8285787106164123613318093945035804818364e-2,
  -5.0301169421838218987124461766244507342648e-2,
  -5.2349964705088137924875459464622098310997e-2,
  -5.4431789996103111613753440311680967840214e-2,
  -5.6546268881465384189752786409400404404794e-2,
  -5.8693031345788023909329239565012647817664e-2,
  -6.0871713627532018185577188079210189048340e-2,
  -6.3081958078862169742820420185833800925568e-2,
  -6.5323413029406789694910800219643791556918e-2,
  -6.7595732653791419081537811574227049288168e-2]

/-- Entry `i` of `logtbl` as a total function (out-of-range reads
default to 0; the in-bounds theorems show the default is never
consulted). -/
def logtblQ (i : Nat) : ℚ := logtbl.getD i 0

/-- High part of the split constant: `ln(2) = ln2a + ln2b` with
extended precision (source constants). -/
def ln2a : ℚ := 6.93145751953125e-1

/-- Low part of the split `ln(2)` constant. -/
def ln2b : ℚ := 1.4286068203094172321214581765680755001344e-6

/-- The bit pattern `t.parts32.w0 = 0x3fff0000 + (k << 9)` (with the
other three words zero) built by the fine tier of the reduction. -/
def tpatFine (k : Nat) : LD := ⟨0x3fff0000 + (k <<< 9), 0, 0, 0⟩

/-- The bit pattern `t.parts32.w0 = 0x3ffe0000 + (k << 10)` (with the
other three words zero) built by the coarse tier of the reduction. -/
def tpatCoarse (k : Nat) : LD := ⟨0x3ffe0000 + (k <<< 10), 0, 0, 0⟩

/-- The state produced by the range-reduction phase: residual `z`,
net binary exponent `e`, table bookkeeping index `k` (the table is later
subscripted at `k - 26`), and grid point `t`. -/
structure Reduction where
  z : ℚ
  e : ℤ
  k : Nat
  t : ℚ
deriving DecidableEq

/-- Range reduction of `__ieee754_logl`, lines 216-259 of the source.

The inputs are the original value `x` (as an exact rational) together
with the output of `__frexpl x`: the integer significand `sig`
(`2^112 ≤ sig < 2^113`) and binary exponent `e0` of `x`, so that the
frexp value is `u = sig / 2^113 ∈ [0.5, 1)` and `x = u * 2^e0`.

`m = sig >>> 96` is the source's `m = (u.parts32.w0 & 0xffff) | 0x10000`.
In the fine tier the source executes `u.parts32.w0 += 0x10000`, which
doubles `u` (theorem `fine_tier_doubling` below); the doubling is written
arithmetically here.  `t` is decoded from the very bit pattern the source
assembles.  The near-1 band test of lines 242-251 is hoisted in front of
the tier selection; this is sound because the tier computation is pure
and completely overwritten by the band branch in the source.

Returns `none` exactly for the early `return 0` at `x = 1`. -/
def reduce (x : ℚ) (sig : Nat) (e0 : ℤ) : Option Reduction :=
  if 0.9921875 ≤ x ∧ x ≤ 1.0078125 then
    if x = 1 then none
    else some ⟨x - 1, 0, 64, 1⟩
  else
    let m := sig >>> 96
    if m < 0x16800 then
      let k := (m - 0xff00) >>> 9
      let t := decode (tpatFine k)
      some ⟨((sig : ℚ) / (2 : ℚ) ^ 113 * 2 - t) / t, e0 - 1, k + 64, t⟩
    else
      let k := (m - 0xfe00) >>> 10
      let t := decode (tpatCoarse k)
      some ⟨((sig : ℚ) / (2 : ℚ) ^ 113 - t) / t, e0, k, t⟩

/-- Series evaluation and final accumulation of `__ieee754_logl`,
lines 260-281 of the source, in the exact order written there. -/
def logAccum (r : Reduction) : ℚ :=
  let z := r.z
  let w := z * z
  let y := ((((((((((((l15 * z
                  + l14) * z
                 + l13) * z
                + l12) * z
               + l11) * z
              + l10) * z
             + l9) * z
            + l8) * z
           + l7) * z
          + l6) * z
         + l5) * z
        + l4) * z
       + l3) * z * w
  let y := y - 0.5 * w
  let y := y + (r.e : ℚ) * ln2b
  let y := y + z
  let y := y + logtblQ (r.k - 26)
  let y := y + (r.t - 1)
  y + (r.e : ℚ) * ln2a

/-- The finite (non-special) path of `__ieee754_logl`: reduction
followed by series evaluation and accumulation; the `none` case is the
early `return 0` for `x = 1`. -/
def loglFinite (x : ℚ) (sig : Nat) (e0 : ℤ) : ℚ :=
  match reduce x sig e0 with
  | none => 0
  | some r => logAccum r

/-- Modelled from the spec: `__frexpl` is not part of this repository.
Per the spec (§4.2 step 1, and the C standard semantics the source relies
on) it splits a positive finite `x` into a significand in `[0.5, 1)` and
a binary exponent.  Here it is computed from the bit pattern: the result
is the integer significand `sig ∈ [2^112, 2^113)` and exponent `e` with
`x = (sig / 2^113) * 2^e`, normalizing subnormals. -/
def frexpl (x : LD) : Nat × ℤ :=
  if expField x = 0 then
    let f := fracField x
    let s := 112 - Nat.log 2 f
    (f <<< s, -16381 - (s : ℤ))
  else
    (2 ^ 112 + fracField x, (expField x : ℤ) - 16382)

/-- Symbolic return value of `__ieee754_logl`, keeping the exact
arithmetic idiom the source uses to build each special value:
* `negHalfDivZero` is `return -0.5 / ZERO` (line 203), the divide-by-zero
  construction of `-∞`;
* `selfSubDivZero` is `return (x - x) / ZERO` (line 208), the
  invalid-operation construction of a NaN;
* `selfAdd` is `return x + x` (line 213), the self-addition passthrough
  for infinities and NaNs;
* `val y` is the ordinary computed result `return y` (line 281). -/
inductive LogResult where
  | negHalfDivZero
  | selfSubDivZero
  | selfAdd
  | val (y : ℚ)
deriving DecidableEq

/-- The function `__ieee754_logl`, lines 187-282 of the source: the
special-case classifier on the raw words, then the finite path. -/
def ieee754_logl (x : LD) : LogResult :=
  let m := x.w0
  let k := m &&& 0x7fffffff
  if k ||| x.w1 ||| x.w2 ||| x.w3 = 0 then
    .negHalfDivZero
  else if m &&& 0x80000000 ≠ 0 then
    .selfSubDivZero
  else if 0x7fff0000 ≤ k then
    .selfAdd
  else
    .val (loglFinite (decode x) (frexpl x).1 (frexpl x).2)

/-- An abstract, uninterpreted arithmetic: three opaque binary
operations.  Instantiating a statement over all `Ops α` pins down the
exact operation tree (the exact ordered sequence of multiply, add and
subtract steps), which exact rational arithmetic alone would not. -/
structure Ops (α : Type) where
  add : α → α → α
  sub : α → α → α
  mul : α → α → α

/-- The constants consumed by the series evaluation and final
accumulation, abstracted over the arithmetic carrier. -/
structure Consts (α : Type) where
  cl3 : α
  cl4 : α
  cl5 : α
  cl6 : α
  cl7 : α
  cl8 : α
  cl9 : α
  cl10 : α
  cl11 : α
  cl12 : α
  cl13 : α
  cl14 : α
  cl15 : α
  chalf : α
  cln2a : α
  cln2b : α
  cone : α

/-- Lines 260-281 of the source over an abstract arithmetic: the
nested multiply-add expression for the series exactly as written in the
source, followed by the six accumulation steps in source order.
`z` is the reduced residual, `ef` the float conversion of the exponent
`e`, `t` the grid point value and `tbl` the loaded `logtbl[k-26]`. -/
def accumCode {α : Type} (o : Ops α) (c : Consts α) (z ef t tbl : α) : α :=
  let w := o.mul z z
  let y := o.mul (o.mul
    (o.add (o.mul
      (o.add (o.mul
        (o.add (o.mul
          (o.add (o.mul
            (o.add (o.mul
              (o.add (o.mul
                (o.add (o.mul
                  (o.add (o.mul
                    (o.add (o.mul
                      (o.add (o.mul
                        (o.add (o.mul
                          (o.add (o.mul c.cl15 z)
                          c.cl14) z)
                        c.cl13) z)
                      c.cl12) z)
                    c.cl11) z)
                  c.cl10) z)
                c.cl9) z)
              c.cl8) z)
            c.cl7) z)
          c.cl6) z)
        c.cl5) z)
      c.cl4) z)
    c.cl3) z) w
  let y := o.sub y (o.mul c.chalf w)
  let y := o.add y (o.mul ef c.cln2b)
  let y := o.add y z
  let y := o.add y tbl
  let y := o.add y (o.sub t c.cone)
  o.add y (o.mul ef c.cln2a)

/-- Horner evaluation as the spec words it: a nested multiply-add fold
over the coefficient list, highest degree first. -/
def hornerHighFirst {α : Type} (o : Ops α) (z : α) (top : α) (rest : List α) : α :=
  rest.foldl (fun acc c => o.add (o.mul acc z) c) top

/-- The final combination exactly as the spec states it (§4.3-4.4):
`y = z³·P(z)` with `P` a Horner fold over the 13 coefficients high
degree first, then `y -= 0.5·z²`, `y += e·ln2b`, `y += z`,
`y += logtbl[k]`, `y += (t - 1)`, `y += e·ln2a`, in that order. -/
def accumSpec {α : Type} (o : Ops α) (c : Consts α) (z ef t tbl : α) : α :=
  let p := hornerHighFirst o z c.cl15
    [c.cl14, c.cl13, c.cl12, c.cl11, c.cl10, c.cl9, c.cl8,
     c.cl7, c.cl6, c.cl5, c.cl4, c.cl3]
  let ySeries := o.mul (o.mul p z) (o.mul z z)
  let y1 := o.sub ySeries (o.mul c.chalf (o.mul z z))
  let y2 := o.add y1 (o.mul ef c.cln2b)
  let y3 := o.add y2 z
  let y4 := o.add y3 tbl
  let y5 := o.add y4 (o.sub t c.cone)
  o.add y5 (o.mul ef c.cln2a)

/-- The rational instantiation of the abstract arithmetic. -/
def ratOps : Ops ℚ := ⟨fun a b => a + b, fun a b => a - b, fun a b => a * b⟩

/-- The rational instantiation of the constants: the source constants. -/
def ratConsts : Consts ℚ :=
  ⟨l3, l4, l5, l6, l7, l8, l9, l10, l11, l12, l13, l14, l15, 0.5, ln2a, ln2b, 1⟩

end Logl

/-! Helper lemmas: bit-field accessors as division and remainder, the
decoded values of the assembled grid-point patterns, branch equations
for the reduction, and the index and residual bounds. -/

namespace Logl

lemma and_mask15 (n : Nat) : n &&& 0x7fff = n % 2 ^ 15 := Nat.and_pow_two_sub_one_eq_mod n 15

lemma and_mask16 (n : Nat) : n &&& 0xffff = n % 2 ^ 16 := Nat.and_pow_two_sub_one_eq_mod n 16

lemma expField_eq (x : LD) : expField x = x.w0 / 2 ^ 16 % 2 ^ 15 := by
  rw [expField, and_mask15, Nat.shiftRight_eq_div_pow]

lemma signBit_eq (x : LD) : signBit x = x.w0 / 2 ^ 31 := by
  rw [signBit, Nat.shiftRight_eq_div_pow]

lemma fracField_eq (x : LD) :
    fracField x = x.w0 % 2 ^ 16 * 2 ^ 96 + x.w1 * 2 ^ 64 + x.w2 * 2 ^ 32 + x.w3 := by
  rw [fracField, and_mask16, Nat.shiftLeft_eq, Nat.shiftLeft_eq, Nat.shiftLeft_eq]

lemma decode_tpatFine (k : Nat) (hk : k < 128) :
    decode (tpatFine k) = (1 : ℚ) + (k : ℚ) * (2 : ℚ) ^ 9 / (2 : ℚ) ^ 16 := by
  have h9 : k <<< 9 = k * 2 ^ 9 := Nat.shiftLeft_eq k 9
  simp only [decode, tpatFine, signBit_eq, expField_eq, fracField_eq, h9]
  have h1 : (0x3fff0000 + k * 2 ^ 9) / 2 ^ 31 = 0 := by omega
  have h2 : (0x3fff0000 + k * 2 ^ 9) / 2 ^ 16 % 2 ^ 15 = 16383 := by omega
  have h3 : (0x3fff0000 + k * 2 ^ 9) % 2 ^ 16 = k * 2 ^ 9 := by omega
  rw [h1, h2, h3]
  norm_num
  field_simp
  ring

lemma decode_tpatCoarse (k : Nat) (hk : k ≤ 64) :
    decode (tpatCoarse k) = ((2 : ℚ) ^ 16 + (k : ℚ) * (2 : ℚ) ^ 10) / (2 : ℚ) ^ 17 := by
  have h10 : k <<< 10 = k * 2 ^ 10 := Nat.shiftLeft_eq k 10
  rcases Nat.lt_or_ge k 64 with hlt | hge
  · simp only [decode, tpatCoarse, signBit_eq, expField_eq, fracField_eq, h10]
    have h1 : (0x3ffe0000 + k * 2 ^ 10) / 2 ^ 31 = 0 := by omega
    have h2 : (0x3ffe0000 + k * 2 ^ 10) / 2 ^ 16 % 2 ^ 15 = 16382 := by omega
    have h3 : (0x3ffe0000 + k * 2 ^ 10) % 2 ^ 16 = k * 2 ^ 10 := by omega
    rw [h1, h2, h3]
    norm_num
    field_simp
    ring
  · have hk64 : k = 64 := le_antisymm hk hge
    subst hk64
    simp only [decode, tpatCoarse, signBit_eq, expField_eq, fracField_eq, h10]
    norm_num

lemma reduce_band (x : ℚ) (sig : Nat) (e0 : ℤ)
    (h1 : 0.9921875 ≤ x) (h2 : x ≤ 1.0078125) (hne : x ≠ 1) :
    reduce x sig e0 = some ⟨x - 1, 0, 64, 1⟩ := by
  simp only [reduce, if_pos (And.intro h1 h2), if_neg hne]

lemma reduce_one (sig : Nat) (e0 : ℤ) : reduce 1 sig e0 = none := by
  have h1 : ((0.9921875 : ℚ) ≤ 1 ∧ (1 : ℚ) ≤ 1.0078125) := by norm_num
  simp only [reduce, if_pos h1, if_pos rfl, if_true]

lemma reduce_fine (x : ℚ) (sig : Nat) (e0 : ℤ)
    (hband : ¬(0.9921875 ≤ x ∧ x ≤ 1.0078125)) (hm : sig >>> 96 < 0x16800) :
    reduce x sig e0 =
      some ⟨((sig : ℚ) / (2 : ℚ) ^ 113 * (2 : ℚ) - decode (tpatFine ((sig >>> 96 - 0xff00) >>> 9)))
              / decode (tpatFine ((sig >>> 96 - 0xff00) >>> 9)),
            e0 - 1, (sig >>> 96 - 0xff00) >>> 9 + 64,
            decode (tpatFine ((sig >>> 96 - 0xff00) >>> 9))⟩ := by
  simp only [reduce, if_neg hband, if_pos hm]

lemma reduce_coarse (x : ℚ) (sig : Nat) (e0 : ℤ)
    (hband : ¬(0.9921875 ≤ x ∧ x ≤ 1.0078125)) (hm : ¬ sig >>> 96 < 0x16800) :
    reduce x sig e0 =
      some ⟨((sig : ℚ) / (2 : ℚ) ^ 113 - decode (tpatCoarse ((sig >>> 96 - 0xfe00) >>> 10)))
              / decode (tpatCoarse ((sig >>> 96 - 0xfe00) >>> 10)),
            e0, (sig >>> 96 - 0xfe00) >>> 10,
            decode (tpatCoarse ((sig >>> 96 - 0xfe00) >>> 10))⟩ := by
  simp only [reduce, if_neg hband, if_neg hm]

lemma kFine_le (sig : Nat) (hm : sig >>> 96 < 0x16800) :
    (sig >>> 96 - 0xff00) >>> 9 ≤ 52 := by
  simp only [Nat.shiftRight_eq_div_pow] at hm ⊢
  omega

lemma kCoarse_bounds (sig : Nat) (hhi : sig < 2 ^ 113) (hm : ¬ sig >>> 96 < 0x16800) :
    26 ≤ (sig >>> 96 - 0xfe00) >>> 10 ∧ (sig >>> 96 - 0xfe00) >>> 10 ≤ 64 := by
  simp only [Nat.shiftRight_eq_div_pow] at hm ⊢
  omega

lemma z_bound_generic (u t : ℚ) (ht1 : 1 / 2 ≤ t)
    (hub : u - t ≤ 1 / 256) (hlb : t - u ≤ 1 / 256) :
    |(u - t) / t| ≤ 1 / 128 := by
  have ht0 : 0 < t := by linarith
  rw [abs_div, abs_of_pos ht0, div_le_iff₀ ht0, abs_le]
  constructor
  · linarith
  · linarith

end Logl

namespace Logl

lemma fine_ineq (S M K : ℚ) (c1 : (2 : ℚ) ^ 96 * M ≤ S) (c2 : S < (2 : ℚ) ^ 96 * M + (2 : ℚ) ^ 96)
    (c5 : 65536 ≤ M) (c3 : 512 * K ≤ M - 65280) (c4 : M - 65280 ≤ 512 * K + 511) (hK0 : 0 ≤ K) :
    |((S / (2 : ℚ) ^ 113 * (2 : ℚ) - ((1 : ℚ) + K * (2 : ℚ) ^ 9 / (2 : ℚ) ^ 16)))
        / ((1 : ℚ) + K * (2 : ℚ) ^ 9 / (2 : ℚ) ^ 16)| ≤ 1 / 128 := by
  apply z_bound_generic
  · norm_num
    linarith
  · norm_num at c1 c2 ⊢
    linarith
  · norm_num at c1 c2 ⊢
    linarith

lemma coarse_ineq (S M K : ℚ) (c1 : (2 : ℚ) ^ 96 * M ≤ S) (c2 : S < (2 : ℚ) ^ 96 * M + (2 : ℚ) ^ 96)
    (c5 : 92160 ≤ M) (c3 : 1024 * K ≤ M - 65024) (c4 : M - 65024 ≤ 1024 * K + 1023)
    (cK26 : 26 ≤ K) :
    |((S / (2 : ℚ) ^ 113 - (((2 : ℚ) ^ 16 + K * (2 : ℚ) ^ 10) / (2 : ℚ) ^ 17)))
        / (((2 : ℚ) ^ 16 + K * (2 : ℚ) ^ 10) / (2 : ℚ) ^ 17)| ≤ 1 / 128 := by
  apply z_bound_generic
  · norm_num
    linarith
  · norm_num at c1 c2 ⊢
    linarith
  · norm_num at c1 c2 ⊢
    linarith

lemma sig_div_facts (sig : Nat) :
    (2 : ℚ) ^ 96 * ((sig >>> 96 : Nat) : ℚ) ≤ (sig : ℚ) ∧
    (sig : ℚ) < (2 : ℚ) ^ 96 * ((sig >>> 96 : Nat) : ℚ) + (2 : ℚ) ^ 96 := by
  have f1 : 2 ^ 96 * (sig >>> 96) ≤ sig ∧ sig < 2 ^ 96 * (sig >>> 96) + 2 ^ 96 := by
    simp only [Nat.shiftRight_eq_div_pow]
    omega
  constructor
  · exact_mod_cast f1.1
  · exact_mod_cast f1.2

lemma z_fine_bound (sig : Nat) (hlo : 2 ^ 112 ≤ sig) (hm : sig >>> 96 < 0x16800) :
    |((sig : ℚ) / (2 : ℚ) ^ 113 * (2 : ℚ) - decode (tpatFine ((sig >>> 96 - 0xff00) >>> 9)))
        / decode (tpatFine ((sig >>> 96 - 0xff00) >>> 9))| ≤ 1 / 128 := by
  rw [decode_tpatFine _ (by have := kFine_le sig hm; omega)]
  have hc := sig_div_facts sig
  have f2 : 65536 ≤ sig >>> 96 ∧
      512 * ((sig >>> 96 - 0xff00) >>> 9) + 65280 ≤ sig >>> 96 ∧
      sig >>> 96 ≤ 512 * ((sig >>> 96 - 0xff00) >>> 9) + 65280 + 511 := by
    simp only [Nat.shiftRight_eq_div_pow] at hm ⊢
    omega
  have c5 : (65536 : ℚ) ≤ ((sig >>> 96 : Nat) : ℚ) := by exact_mod_cast f2.1
  have c3 : 512 * (((sig >>> 96 - 0xff00) >>> 9 : Nat) : ℚ) ≤ ((sig >>> 96 : Nat) : ℚ) - 65280 := by
    have h3 : ((512 * ((sig >>> 96 - 0xff00) >>> 9) + 65280 : Nat) : ℚ) ≤ ((sig >>> 96 : Nat) : ℚ) := by
      exact_mod_cast f2.2.1
    push_cast at h3 ⊢
    linarith
  have c4 : ((sig >>> 96 : Nat) : ℚ) - 65280 ≤ 512 * (((sig >>> 96 - 0xff00) >>> 9 : Nat) : ℚ) + 511 := by
    have h4 : ((sig >>> 96 : Nat) : ℚ) ≤ ((512 * ((sig >>> 96 - 0xff00) >>> 9) + 65280 + 511 : Nat) : ℚ) := by
      exact_mod_cast f2.2.2
    push_cast at h4 ⊢
    linarith
  have hK0 : (0 : ℚ) ≤ (((sig >>> 96 - 0xff00) >>> 9 : Nat) : ℚ) := Nat.cast_nonneg _
  exact fine_ineq _ _ _ hc.1 hc.2 c5 c3 c4 hK0

lemma z_coarse_bound (sig : Nat) (hhi : sig < 2 ^ 113) (hm : ¬ sig >>> 96 < 0x16800) :
    |((sig : ℚ) / (2 : ℚ) ^ 113 - decode (tpatCoarse ((sig >>> 96 - 0xfe00) >>> 10)))
        / decode (tpatCoarse ((sig >>> 96 - 0xfe00) >>> 10))| ≤ 1 / 128 := by
  obtain ⟨hk26, hk64⟩ := kCoarse_bounds sig hhi hm
  rw [decode_tpatCoarse _ hk64]
  have hc := sig_div_facts sig
  have f2 : 92160 ≤ sig >>> 96 ∧
      1024 * ((sig >>> 96 - 0xfe00) >>> 10) + 65024 ≤ sig >>> 96 ∧
      sig >>> 96 ≤ 1024 * ((sig >>> 96 - 0xfe00) >>> 10) + 65024 + 1023 := by
    simp only [Nat.shiftRight_eq_div_pow] at hm ⊢
    omega
  have c5 : (92160 : ℚ) ≤ ((sig >>> 96 : Nat) : ℚ) := by exact_mod_cast f2.1
  have c3 : 1024 * (((sig >>> 96 - 0xfe00) >>> 10 : Nat) : ℚ) ≤ ((sig >>> 96 : Nat) : ℚ) - 65024 := by
    have h3 : ((1024 * ((sig >>> 96 - 0xfe00) >>> 10) + 65024 : Nat) : ℚ) ≤ ((sig >>> 96 : Nat) : ℚ) := by
      exact_mod_cast f2.2.1
    push_cast at h3 ⊢
    linarith
  have c4 : ((sig >>> 96 : Nat) : ℚ) - 65024 ≤ 1024 * (((sig >>> 96 - 0xfe00) >>> 10 : Nat) : ℚ) + 1023 := by
    have h4 : ((sig >>> 96 : Nat) : ℚ) ≤ ((1024 * ((sig >>> 96 - 0xfe00) >>> 10) + 65024 + 1023 : Nat) : ℚ) := by
      exact_mod_cast f2.2.2
    push_cast at h4 ⊢
    linarith
  have cK26 : (26 : ℚ) ≤ (((sig >>> 96 - 0xfe00) >>> 10 : Nat) : ℚ) := by exact_mod_cast hk26
  exact coarse_ineq _ _ _ hc.1 hc.2 c5 c3 c4 cK26

end Logl

namespace Logl

lemma lor_eq_zero_left {a b : Nat} (h : a ||| b = 0) : a = 0 := by
  by_contra ha
  obtain ⟨i, hi⟩ := Nat.ne_zero_implies_bit_true ha
  have h2 : (a ||| b).testBit i = true := by
    rw [Nat.testBit_lor]
    simp [hi]
  rw [h] at h2
  simp at h2

/-- C4: for inputs in the band `[0.9921875, 1.0078125]` other than 1,
the general reduction is overridden: `k` is forced to 64 (table entry
`64 - 26 = 38`, the zero anchor, whose value is exactly 0), `t = 1`,
`e = 0`, and `z = x - 1` computed directly. -/
theorem near_one_band_override (x : ℚ) (sig : Nat) (e0 : ℤ)
    (h1 : 0.9921875 ≤ x) (h2 : x ≤ 1.0078125) (hne : x ≠ 1) :
    reduce x sig e0 = some ⟨x - 1, 0, 64, 1⟩ ∧ logtblQ (64 - 26) = 0 := by
  refine ⟨reduce_band x sig e0 h1 h2 hne, ?_⟩
  norm_num [logtblQ, logtbl]

/-- Witness for `near_one_band_override` at `x = 255/256`. -/
theorem near_one_band_override_witness :
    reduce (255 / 256) 0 0 = some ⟨255 / 256 - 1, 0, 64, 1⟩ ∧ logtblQ (64 - 26) = 0 :=
  near_one_band_override (255 / 256) 0 0 (by norm_num) (by norm_num) (by norm_num)

/-- C5: on the bit pattern of 1.0 the function returns the exact
computed value 0 (the early `return 0` of the reduction), not a residual. -/
theorem log_one_exact_zero : ieee754_logl ⟨0x3fff0000, 0, 0, 0⟩ = .val 0 := by
  simp only [ieee754_logl]
  rw [if_neg (by decide), if_neg (by decide), if_neg (by decide)]
  have hdec : decode ⟨0x3fff0000, 0, 0, 0⟩ = 1 := by
    simp only [decode, signBit_eq, expField_eq, fracField_eq]
    norm_num
  rw [hdec]
  simp only [loglFinite, reduce_one]

/-- C6: both zero patterns (+0 and -0) return the `-0.5 / ZERO`
divide-by-zero construction of negative infinity, not an infinity
literal. -/
theorem log_zero_neg_inf_idiom :
    ieee754_logl ⟨0, 0, 0, 0⟩ = .negHalfDivZero ∧
    ieee754_logl ⟨0x80000000, 0, 0, 0⟩ = .negHalfDivZero := by
  constructor <;> decide

/-- C7: every input with the sign bit set and nonzero magnitude returns
the `(x - x) / ZERO` invalid-operation construction of NaN. -/
theorem log_negative_invalid_idiom (x : LD)
    (hs : x.w0 &&& 0x80000000 ≠ 0)
    (hm : (x.w0 &&& 0x7fffffff) ||| x.w1 ||| x.w2 ||| x.w3 ≠ 0) :
    ieee754_logl x = .selfSubDivZero := by
  simp only [ieee754_logl]
  rw [if_neg hm, if_pos hs]

/-- Witness for `log_negative_invalid_idiom` at the pattern of -1.0. -/
theorem log_negative_invalid_idiom_witness :
    ieee754_logl ⟨0xbfff0000, 0, 0, 0⟩ = .selfSubDivZero :=
  log_negative_invalid_idiom ⟨0xbfff0000, 0, 0, 0⟩ (by decide) (by decide)

/-- C8 counterexample: the pattern `0xffff8000 0 0 0` is a NaN (maximal
exponent field, nonzero mantissa) with the sign bit set; the function
returns the `(x - x) / ZERO` construction of the negative branch, not
the self-addition `x + x`. -/
theorem negative_nan_not_self_add :
    expField ⟨0xffff8000, 0, 0, 0⟩ = 0x7fff ∧
    fracField ⟨0xffff8000, 0, 0, 0⟩ ≠ 0 ∧
    signBit ⟨0xffff8000, 0, 0, 0⟩ = 1 ∧
    ieee754_logl ⟨0xffff8000, 0, 0, 0⟩ ≠ .selfAdd ∧
    ieee754_logl ⟨0xffff8000, 0, 0, 0⟩ = .selfSubDivZero := by
  refine ⟨by decide, by decide, by decide, by decide, by decide⟩

/-- C8 amended: every input whose sign bit is clear and whose masked
word `w0 & 0x7fffffff` reaches `0x7fff0000` (positive NaNs and +inf)
returns the self-addition `x + x`; negative NaNs are caught earlier by
the sign branch (see `negative_nan_not_self_add`). -/
theorem positive_nan_self_add (x : LD)
    (hs : x.w0 &&& 0x80000000 = 0)
    (hk : 0x7fff0000 ≤ x.w0 &&& 0x7fffffff) :
    ieee754_logl x = .selfAdd := by
  have hnz : (x.w0 &&& 0x7fffffff) ||| x.w1 ||| x.w2 ||| x.w3 ≠ 0 := by
    intro h0
    have e1 : (x.w0 &&& 0x7fffffff) ||| x.w1 ||| x.w2 = 0 := lor_eq_zero_left h0
    have e2 : (x.w0 &&& 0x7fffffff) ||| x.w1 = 0 := lor_eq_zero_left e1
    have e3 : x.w0 &&& 0x7fffffff = 0 := lor_eq_zero_left e2
    omega
  simp only [ieee754_logl]
  rw [if_neg hnz, if_neg (fun hne => hne hs), if_pos hk]

/-- Witness for `positive_nan_self_add` at a positive quiet NaN. -/
theorem positive_nan_self_add_witness :
    ieee754_logl ⟨0x7fff8000, 0, 0, 0⟩ = .selfAdd :=
  positive_nan_self_add ⟨0x7fff8000, 0, 0, 0⟩ (by decide) (by decide)

/-- C10: when the biased exponent field of `w0` is `0x3ffe` (as
`__frexpl` guarantees for its in-range result), `w0 += 0x10000` stays
below the sign bit, increments the exponent field to `0x3fff`, the
decoded value lies in `[0.5, 1)` and is exactly doubled, and together
with `e -= 1` the invariant `x = 2^e * u.value` is preserved. -/
theorem fine_tier_doubling (w0 w1 w2 w3 : Nat)
    (hw : w0 >>> 16 = 0x3ffe) (h1 : w1 < 2 ^ 32) (h2 : w2 < 2 ^ 32) (h3 : w3 < 2 ^ 32) :
    w0 + 0x10000 < 2 ^ 31 ∧
    (w0 + 0x10000) >>> 16 = 0x3fff ∧
    (1 / 2 ≤ decode ⟨w0, w1, w2, w3⟩ ∧ decode ⟨w0, w1, w2, w3⟩ < 1) ∧
    decode ⟨w0 + 0x10000, w1, w2, w3⟩ = 2 * decode ⟨w0, w1, w2, w3⟩ ∧
    ∀ e : ℤ, (2 : ℚ) ^ (e - 1) * decode ⟨w0 + 0x10000, w1, w2, w3⟩ =
      (2 : ℚ) ^ e * decode ⟨w0, w1, w2, w3⟩ := by
  have hw0 : w0 / 2 ^ 16 = 0x3ffe := by
    rw [← Nat.shiftRight_eq_div_pow]
    exact hw
  have hb : w0 + 0x10000 < 2 ^ 31 := by omega
  have hsh : (w0 + 0x10000) >>> 16 = 0x3fff := by
    rw [Nat.shiftRight_eq_div_pow]
    omega
  have hfrac : (w0 + 0x10000) % 2 ^ 16 = w0 % 2 ^ 16 := by omega
  have hF : w0 % 2 ^ 16 * 2 ^ 96 + w1 * 2 ^ 64 + w2 * 2 ^ 32 + w3 < 2 ^ 112 := by omega
  -- decoded values of the two patterns
  have hd1 : decode ⟨w0, w1, w2, w3⟩ =
      ((2 : ℚ) ^ 112 + ((w0 % 2 ^ 16 * 2 ^ 96 + w1 * 2 ^ 64 + w2 * 2 ^ 32 + w3 : Nat) : ℚ))
        * (2 : ℚ) ^ (-113 : ℤ) := by
    simp only [decode, signBit_eq, expField_eq, fracField_eq]
    have hs0 : w0 / 2 ^ 31 = 0 := by omega
    have he0 : w0 / 2 ^ 16 % 2 ^ 15 = 16382 := by omega
    rw [hs0, he0]
    norm_num
  have hd2 : decode ⟨w0 + 0x10000, w1, w2, w3⟩ =
      ((2 : ℚ) ^ 112 + ((w0 % 2 ^ 16 * 2 ^ 96 + w1 * 2 ^ 64 + w2 * 2 ^ 32 + w3 : Nat) : ℚ))
        * (2 : ℚ) ^ (-112 : ℤ) := by
    simp only [decode, signBit_eq, expField_eq, fracField_eq]
    have hs0 : (w0 + 0x10000) / 2 ^ 31 = 0 := by omega
    have he0 : (w0 + 0x10000) / 2 ^ 16 % 2 ^ 15 = 16383 := by omega
    rw [hs0, he0, hfrac]
    norm_num
  have hcast : ((w0 % 2 ^ 16 * 2 ^ 96 + w1 * 2 ^ 64 + w2 * 2 ^ 32 + w3 : Nat) : ℚ) < (2 : ℚ) ^ 112 := by
    exact_mod_cast hF
  have hcast0 : (0 : ℚ) ≤ ((w0 % 2 ^ 16 * 2 ^ 96 + w1 * 2 ^ 64 + w2 * 2 ^ 32 + w3 : Nat) : ℚ) :=
    Nat.cast_nonneg _
  refine ⟨hb, hsh, ⟨?_, ?_⟩, ?_, ?_⟩
  · rw [hd1]
    push_cast at hcast0 ⊢
    norm_num at hcast0 ⊢
    linarith
  · rw [hd1]
    push_cast at hcast ⊢
    norm_num at hcast ⊢
    linarith
  · rw [hd1, hd2]
    norm_num
    ring
  · intro e
    rw [hd1, hd2, zpow_sub_one₀ (by norm_num : (2 : ℚ) ≠ 0)]
    norm_num
    ring

/-- Witness for `fine_tier_doubling` at the frexp output pattern of
0.75 (`w0 = 0x3ffe8000`). -/
theorem fine_tier_doubling_witness :
    0x3ffe8000 + 0x10000 < 2 ^ 31 ∧
    (0x3ffe8000 + 0x10000 : Nat) >>> 16 = 0x3fff ∧
    (1 / 2 ≤ decode ⟨0x3ffe8000, 0, 0, 0⟩ ∧ decode ⟨0x3ffe8000, 0, 0, 0⟩ < 1) ∧
    decode ⟨0x3ffe8000 + 0x10000, 0, 0, 0⟩ = 2 * decode ⟨0x3ffe8000, 0, 0, 0⟩ ∧
    ∀ e : ℤ, (2 : ℚ) ^ (e - 1) * decode ⟨0x3ffe8000 + 0x10000, 0, 0, 0⟩ =
      (2 : ℚ) ^ e * decode ⟨0x3ffe8000, 0, 0, 0⟩ :=
  fine_tier_doubling 0x3ffe8000 0 0 0 (by decide) (by decide) (by decide) (by decide)

end Logl

namespace Logl

/-- C1: the returned value of the finite path is computed by exactly
the ordered operation sequence the spec gives.  Part one pins the
operation tree over a fully abstract arithmetic: the source's nested
series expression followed by its six accumulation steps
(`accumCode`, transcribed from lines 260-281) is the same operation
tree as the spec's Horner-fold-then-six-ordered-additions
(`accumSpec`).  Part two: on every input that reaches the series
(reduction returns `some r`), the value returned is that sequence
evaluated at the reduction outputs. -/
theorem accum_follows_spec_order :
    (∀ (α : Type) (o : Ops α) (c : Consts α) (z ef t tbl : α),
        accumCode o c z ef t tbl = accumSpec o c z ef t tbl) ∧
    (∀ (x : ℚ) (sig : Nat) (e0 : ℤ) (r : Reduction),
        reduce x sig e0 = some r →
        loglFinite x sig e0 = accumSpec ratOps ratConsts r.z (r.e : ℚ) r.t (logtblQ (r.k - 26))) := by
  constructor
  · intro α o c z ef t tbl
    rfl
  · intro x sig e0 r h
    simp only [loglFinite, h]
    rfl

/-- Witness for `accum_follows_spec_order` at `x = 3`
(`sig = 3·2^111`, `e0 = 2`; coarse tier, `k = 32`, `t = 3/4`, `z = 0`). -/
theorem accum_follows_spec_order_witness :
    reduce 3 (3 * 2 ^ 111) 2 = some ⟨0, 2, 32, 3 / 4⟩ ∧
    loglFinite 3 (3 * 2 ^ 111) 2 =
      accumSpec ratOps ratConsts 0 ((2 : ℤ) : ℚ) (3 / 4) (logtblQ (32 - 26)) := by
  have hband : ¬((0.9921875 : ℚ) ≤ 3 ∧ (3 : ℚ) ≤ 1.0078125) := by norm_num
  have hm : ¬ (3 * 2 ^ 111 : Nat) >>> 96 < 0x16800 := by decide
  have hk : ((3 * 2 ^ 111 : Nat) >>> 96 - 0xfe00) >>> 10 = 32 := by decide
  have h : reduce 3 (3 * 2 ^ 111) 2 = some ⟨0, 2, 32, 3 / 4⟩ := by
    rw [reduce_coarse 3 (3 * 2 ^ 111) 2 hband hm, hk,
      decode_tpatCoarse 32 (by norm_num)]
    norm_num
  exact ⟨h, accum_follows_spec_order.2 3 (3 * 2 ^ 111) 2 ⟨0, 2, 32, 3 / 4⟩ h⟩

/-- C2: for every positive finite input, presented as its frexp
decomposition `x = (sig/2^113) * 2^e0` with `2^112 ≤ sig < 2^113`, and
`x ≠ 1`, the reduction produces a triple with `t` one of the 92 grid
points `0.5 + (j+26)/128` (`j = k - 26 ≤ 91`), the exact identity
`x = 2^e * t * (1+z)`, and `|z| ≤ 1/128`. -/
theorem reduce_grid_decomposition (x : ℚ) (sig : Nat) (e0 : ℤ)
    (hlo : 2 ^ 112 ≤ sig) (hhi : sig < 2 ^ 113)
    (hx : x = (sig : ℚ) / (2 : ℚ) ^ 113 * (2 : ℚ) ^ e0) (hne : x ≠ 1) :
    ∃ r : Reduction, reduce x sig e0 = some r ∧
      26 ≤ r.k ∧ r.k - 26 ≤ 91 ∧
      r.t = 1 / 2 + (((r.k - 26 : ℕ) : ℚ) + 26) / 128 ∧
      x = (2 : ℚ) ^ r.e * r.t * (1 + r.z) ∧
      |r.z| ≤ 1 / 128 := by
  by_cases hband : (0.9921875 : ℚ) ≤ x ∧ x ≤ 1.0078125
  · obtain ⟨hb1, hb2⟩ := hband
    refine ⟨⟨x - 1, 0, 64, 1⟩, reduce_band x sig e0 hb1 hb2 hne, ?_, ?_, ?_, ?_, ?_⟩
    · norm_num
    · norm_num
    · norm_num
    · show x = (2 : ℚ) ^ (0 : ℤ) * 1 * (1 + (x - 1))
      rw [zpow_zero]
      ring
    · show |x - 1| ≤ 1 / 128
      rw [abs_le]
      norm_num at hb1 hb2
      constructor
      · linarith
      · linarith
  · by_cases hm : sig >>> 96 < 0x16800
    · have hk52 : (sig >>> 96 - 0xff00) >>> 9 ≤ 52 := kFine_le sig hm
      have ht : decode (tpatFine ((sig >>> 96 - 0xff00) >>> 9)) =
          (1 : ℚ) + (((sig >>> 96 - 0xff00) >>> 9 : Nat) : ℚ) * (2 : ℚ) ^ 9 / (2 : ℚ) ^ 16 :=
        decode_tpatFine _ (by omega)
      have htpos : (0 : ℚ) < decode (tpatFine ((sig >>> 96 - 0xff00) >>> 9)) := by
        rw [ht]
        positivity
      refine ⟨_, reduce_fine x sig e0 hband hm, ?_, ?_, ?_, ?_, ?_⟩
      · show 26 ≤ (sig >>> 96 - 0xff00) >>> 9 + 64
        omega
      · show (sig >>> 96 - 0xff00) >>> 9 + 64 - 26 ≤ 91
        omega
      · show decode (tpatFine ((sig >>> 96 - 0xff00) >>> 9)) =
          1 / 2 + ((((sig >>> 96 - 0xff00) >>> 9 + 64 - 26 : ℕ) : ℚ) + 26) / 128
        rw [ht, show (sig >>> 96 - 0xff00) >>> 9 + 64 - 26 = (sig >>> 96 - 0xff00) >>> 9 + 38 from by omega]
        push_cast
        ring
      · show x = (2 : ℚ) ^ (e0 - 1) * decode (tpatFine ((sig >>> 96 - 0xff00) >>> 9)) *
          (1 + ((sig : ℚ) / (2 : ℚ) ^ 113 * (2 : ℚ) - decode (tpatFine ((sig >>> 96 - 0xff00) >>> 9)))
            / decode (tpatFine ((sig >>> 96 - 0xff00) >>> 9)))
        have key : decode (tpatFine ((sig >>> 96 - 0xff00) >>> 9)) *
            (1 + ((sig : ℚ) / (2 : ℚ) ^ 113 * (2 : ℚ) - decode (tpatFine ((sig >>> 96 - 0xff00) >>> 9)))
              / decode (tpatFine ((sig >>> 96 - 0xff00) >>> 9))) = (sig : ℚ) / (2 : ℚ) ^ 113 * (2 : ℚ) := by
          field_simp
          ring
        rw [mul_assoc, key, hx, zpow_sub_one₀ (by norm_num : (2 : ℚ) ≠ 0)]
        ring
      · exact z_fine_bound sig hlo hm
    · have hkb := kCoarse_bounds sig hhi hm
      have ht : decode (tpatCoarse ((sig >>> 96 - 0xfe00) >>> 10)) =
          ((2 : ℚ) ^ 16 + (((sig >>> 96 - 0xfe00) >>> 10 : Nat) : ℚ) * (2 : ℚ) ^ 10) / (2 : ℚ) ^ 17 :=
        decode_tpatCoarse _ hkb.2
      have htpos : (0 : ℚ) < decode (tpatCoarse ((sig >>> 96 - 0xfe00) >>> 10)) := by
        rw [ht]
        positivity
      refine ⟨_, reduce_coarse x sig e0 hband hm, ?_, ?_, ?_, ?_, ?_⟩
      · show 26 ≤ (sig >>> 96 - 0xfe00) >>> 10
        exact hkb.1
      · show (sig >>> 96 - 0xfe00) >>> 10 - 26 ≤ 91
        omega
      · show decode (tpatCoarse ((sig >>> 96 - 0xfe00) >>> 10)) =
          1 / 2 + ((((sig >>> 96 - 0xfe00) >>> 10 - 26 : ℕ) : ℚ) + 26) / 128
        have h26 := hkb.1
        rw [ht, show ((sig >>> 96 - 0xfe00) >>> 10 - 26 : ℕ) = (sig >>> 96 - 0xfe00) >>> 10 - 26 from rfl]
        have hcast : (((sig >>> 96 - 0xfe00) >>> 10 - 26 : ℕ) : ℚ) =
            (((sig >>> 96 - 0xfe00) >>> 10 : Nat) : ℚ) - 26 := by
          push_cast [Nat.cast_sub h26]
          ring
        rw [hcast]
        ring
      · show x = (2 : ℚ) ^ e0 * decode (tpatCoarse ((sig >>> 96 - 0xfe00) >>> 10)) *
          (1 + ((sig : ℚ) / (2 : ℚ) ^ 113 - decode (tpatCoarse ((sig >>> 96 - 0xfe00) >>> 10)))
            / decode (tpatCoarse ((sig >>> 96 - 0xfe00) >>> 10)))
        have key : decode (tpatCoarse ((sig >>> 96 - 0xfe00) >>> 10)) *
            (1 + ((sig : ℚ) / (2 : ℚ) ^ 113 - decode (tpatCoarse ((sig >>> 96 - 0xfe00) >>> 10)))
              / decode (tpatCoarse ((sig >>> 96 - 0xfe00) >>> 10))) = (sig : ℚ) / (2 : ℚ) ^ 113 := by
          field_simp
          ring
        rw [mul_assoc, key, hx]
        ring
      · exact z_coarse_bound sig hhi hm

/-- Witness for `reduce_grid_decomposition` at `x = 3`. -/
theorem reduce_grid_decomposition_witness :
    ∃ r : Reduction, reduce 3 (3 * 2 ^ 111) 2 = some r ∧
      26 ≤ r.k ∧ r.k - 26 ≤ 91 ∧
      r.t = 1 / 2 + (((r.k - 26 : ℕ) : ℚ) + 26) / 128 ∧
      (3 : ℚ) = (2 : ℚ) ^ r.e * r.t * (1 + r.z) ∧
      |r.z| ≤ 1 / 128 :=
  reduce_grid_decomposition 3 (3 * 2 ^ 111) 2 (by norm_num) (by norm_num)
    (by push_cast; norm_num) (by norm_num)

/-- C3: whenever the reduction of a positive finite input succeeds, the
index `k - 26` actually used to subscript the table lies in `[0, 91]`
and is in bounds of the 92-entry `logtbl`. -/
theorem logtbl_index_in_bounds (x : ℚ) (sig : Nat) (e0 : ℤ) (r : Reduction)
    (hlo : 2 ^ 112 ≤ sig) (hhi : sig < 2 ^ 113)
    (h : reduce x sig e0 = some r) :
    26 ≤ r.k ∧ r.k - 26 ≤ 91 ∧ r.k - 26 < logtbl.length := by
  have hlen : logtbl.length = 92 := by rfl
  rw [hlen]
  by_cases hband : (0.9921875 : ℚ) ≤ x ∧ x ≤ 1.0078125
  · by_cases hone : x = 1
    · rw [hone, reduce_one] at h
      cases h
    · rw [reduce_band x sig e0 hband.1 hband.2 hone] at h
      injection h with h
      subst h
      refine ⟨by norm_num, by norm_num, by norm_num⟩
  · by_cases hm : sig >>> 96 < 0x16800
    · rw [reduce_fine x sig e0 hband hm] at h
      injection h with h
      subst h
      have := kFine_le sig hm
      refine ⟨?_, ?_, ?_⟩
      · show 26 ≤ (sig >>> 96 - 0xff00) >>> 9 + 64
        omega
      · show (sig >>> 96 - 0xff00) >>> 9 + 64 - 26 ≤ 91
        omega
      · show (sig >>> 96 - 0xff00) >>> 9 + 64 - 26 < 92
        omega
    · rw [reduce_coarse x sig e0 hband hm] at h
      injection h with h
      subst h
      have := kCoarse_bounds sig hhi hm
      refine ⟨this.1, ?_, ?_⟩
      · show (sig >>> 96 - 0xfe00) >>> 10 - 26 ≤ 91
        omega
      · show (sig >>> 96 - 0xfe00) >>> 10 - 26 < 92
        omega

/-- Witness for `logtbl_index_in_bounds` at `x = 5/4` (fine tier:
`sig = 5·2^110`, `e0 = 1`, `k = 96`). -/
theorem logtbl_index_in_bounds_witness :
    26 ≤ (96 : ℕ) ∧ (96 : ℕ) - 26 ≤ 91 ∧ (96 : ℕ) - 26 < logtbl.length := by
  have hband : ¬((0.9921875 : ℚ) ≤ 5 / 4 ∧ (5 / 4 : ℚ) ≤ 1.0078125) := by norm_num
  have hm : (5 * 2 ^ 110 : Nat) >>> 96 < 0x16800 := by decide
  have hk : ((5 * 2 ^ 110 : Nat) >>> 96 - 0xff00) >>> 9 = 32 := by decide
  have h : reduce (5 / 4) (5 * 2 ^ 110) 1 = some ⟨0, 0, 96, 5 / 4⟩ := by
    rw [reduce_fine (5 / 4) (5 * 2 ^ 110) 1 hband hm, hk,
      decode_tpatFine 32 (by norm_num)]
    norm_num
  have := logtbl_index_in_bounds (5 / 4) (5 * 2 ^ 110) 1 ⟨0, 0, 96, 5 / 4⟩
    (by norm_num) (by norm_num) h
  exact this

end Logl
